import Mathlib

/-!
# Verification of the token-ring metadata core (`locator/token_metadata.cc`)

This file is a shallow embedding, in Lean 4, of the token-metadata core of
the repository: the filtered/deterministic translation of
`locator::token_metadata_impl`, `locator::token_metadata` and
`locator::shared_token_metadata` from `src/locator/token_metadata.cc`.

Modelling conventions:
* `token` is the opaque totally ordered value of the ring; it is embedded as
  `Int` (the core only compares tokens, so any linear order is faithful).
* `gms::inet_address` (endpoints) are embedded as `Nat`.
* `std::unordered_map` / `std::unordered_set` are embedded as association
  lists / lists with a deterministic iteration order; the C++ containers
  guarantee key uniqueness, which theorems assume via explicit `Nodup`
  hypotheses where it matters.
* Coroutines (`future<>`, `co_await`, `maybe_yield`) are pure sequencing;
  exceptions (`on_internal_error`, `throw`) are `Except` errors.
* `_static_ring_version` is a `thread_local` process-wide counter.  Mutations
  of the metadata are serialized per shard, so it is carried as a field
  (`static_ring_version`) of the state; `invalidate_cached_rings` sets
  `ring_version = ++static_ring_version` exactly as the source does.
-/

abbrev Token := Int

abbrev Endpoint := Nat

/-- `dht::minimum_token()`: the least value of the circular token space.
Only used as the default lower bound of unbounded ranges. -/
def minimumToken : Token := -(2 ^ 63)

/-- `dht::maximum_token()`: the greatest value of the circular token space.
Only used as the default upper bound of unbounded ranges. -/
def maximumToken : Token := 2 ^ 63 - 1

/-- The design-level error kinds of the core (spec section 7); in the source
they are `on_internal_error` and the `std::runtime_error` throws. -/
inductive TMError where
  | invariantViolation
  | tokenCollision
  | emptyRing
  | notFound
  deriving DecidableEq, Repr

/-- A bound of a `range<dht::token>`: a value plus inclusivity flag
(`range_bound<token>`). -/
structure RangeBound where
  value : Token
  is_inclusive : Bool
  deriving DecidableEq, Repr

/-- `range<dht::token>`: optionally bounded on either side.  `none` is an
unbounded (infinite) side. -/
structure TokenRange where
  rstart : Option RangeBound
  rend : Option RangeBound
  deriving DecidableEq, Repr

/-- The four bound kinds of a `boost::icl::interval<token>::interval_type`. -/
inductive IclBoundKind where
  | bopen
  | bleftOpen
  | brightOpen
  | bclosed
  deriving DecidableEq, Repr

/-- A `boost::icl::interval<token>::interval_type`: two bounds and the
openness combination. -/
structure IclInterval where
  lower : Token
  upper : Token
  bounds : IclBoundKind
  deriving DecidableEq, Repr

/-- A per-keyspace `boost::icl::interval_map<token, set<inet_address>>`,
represented by the list of `(interval, endpoint-set)` pairs added to it.
The aggregate-on-overlap semantics of `icl` is recovered at lookup time:
the value at a token is the union of the sets of all added pairs whose
interval contains it. -/
abbrev IclMap := List (IclInterval × List Endpoint)

/-- `(datacenter, rack)` pair (`endpoint_dc_rack`). -/
structure DcRack where
  dc : String
  rack : String
  deriving DecidableEq, Repr

/-- `locator::node::state`. -/
inductive NodeState where
  | joining
  | normal
  | leaving
  | replacing
  | left
  deriving DecidableEq, Repr

/-- The state of one `locator::token_metadata_impl` (all data members, in
source order).  The `topology` member is `Modelled from the spec:` the
`locator::topology` class is not part of the sources under verification
(only its call sites are); spec section 4.1 specifies it as an endpoint
index with dc/rack and node-state attributes.  The verified operations
observe only endpoint membership (`has_endpoint`), so the topology is
embedded as the list of its endpoints. -/
structure TokenMetadata where
  token_to_endpoint_map : List (Token × Endpoint)
  normal_token_owners : List Endpoint
  bootstrap_tokens : List (Token × Endpoint)
  leaving_endpoints : List Endpoint
  replacing_endpoints : List (Endpoint × Endpoint)
  pending_ranges : List (String × IclMap)
  sorted_tokens : List Token
  topology : List Endpoint
  ring_version : Int
  static_ring_version : Int
  deriving DecidableEq, Repr

/-- `token_metadata(config)`: a fresh instance; every container empty and
`_ring_version = 0` (with the process counter at its initial value). -/
def initTM : TokenMetadata :=
  { token_to_endpoint_map := []
    normal_token_owners := []
    bootstrap_tokens := []
    leaving_endpoints := []
    replacing_endpoints := []
    pending_ranges := []
    sorted_tokens := []
    topology := []
    ring_version := 0
    static_ring_version := 0 }

/-! ## Generic container helpers (the C++ container primitives) -/

/-- First-match association lookup (`unordered_map::find`). -/
def assoc_find? {α β : Type} [DecidableEq α] : List (α × β) → α → Option β
  | [], _ => none
  | p :: rest, a => if p.1 = a then some p.2 else assoc_find? rest a

/-- `map[k] = v`: overwrite the (first) binding of `k`, or append a new one
(`operator[]` assignment). -/
def assoc_assign {α β : Type} [DecidableEq α] : List (α × β) → α → β → List (α × β)
  | [], a, b => [(a, b)]
  | p :: rest, a, b => if p.1 = a then (a, b) :: rest else p :: assoc_assign rest a b

/-- `map.erase(k)`: drop every binding of key `k` (keys are unique in the C++
maps, so this is the single-element erase). -/
def erase_key {α β : Type} [DecidableEq α] : List (α × β) → α → List (α × β)
  | [], _ => []
  | p :: rest, a => if p.1 = a then erase_key rest a else p :: erase_key rest a

/-- The file-local helper `remove_by_value`: erase every entry whose mapped
value equals `v`. -/
def remove_by_value {α β : Type} [DecidableEq β] : List (α × β) → β → List (α × β)
  | [], _ => []
  | p :: rest, v => if p.2 = v then remove_by_value rest v else p :: remove_by_value rest v

/-- `unordered_set::insert`: add the element unless present. -/
def insert_unique {α : Type} [DecidableEq α] (l : List α) (a : α) : List α :=
  if a ∈ l then l else l ++ [a]

/-- `unordered_set::erase`: remove the element (all occurrences; sets hold at
most one). -/
def erase_elem {α : Type} [DecidableEq α] : List α → α → List α
  | [], _ => []
  | x :: rest, a => if x = a then erase_elem rest a else x :: erase_elem rest a

/-- `unordered_set<token>::erase(it)` inside the phase-1 loop of
`update_normal_tokens`: removes the found element (first occurrence). -/
def erase_one : List Token → Token → List Token
  | [], _ => []
  | t :: rest, x => if t = x then rest else t :: erase_one rest x

/-- Group a multimap's pairs by key, collecting values into sets
(`unordered_multimap` to `unordered_map<_, unordered_set<_>>`). -/
def add_to_group {α β : Type} [DecidableEq α] [DecidableEq β] :
    List (α × List β) → α → β → List (α × List β)
  | [], a, b => [(a, [b])]
  | q :: rest, a, b =>
    if q.1 = a then (a, insert_unique q.2 b) :: rest else q :: add_to_group rest a b

/-! ## `token_metadata_impl` operations -/

/-- `token_metadata_impl::sort_tokens`: collect the keys of
`_token_to_endpoint_map` and sort them ascending. -/
def sort_keys (m : List (Token × Endpoint)) : List Token :=
  List.insertionSort (fun a b => a ≤ b) (m.map Prod.fst)

/-- `sort_tokens` applied to the state. -/
def sort_tokens (s : TokenMetadata) : TokenMetadata :=
  { s with sorted_tokens := sort_keys s.token_to_endpoint_map }

/-- `invalidate_cached_rings`: `_ring_version = ++_static_ring_version`. -/
def invalidate_cached_rings (s : TokenMetadata) : TokenMetadata :=
  { s with ring_version := s.static_ring_version + 1
           static_ring_version := s.static_ring_version + 1 }

/-- `update_normal_token_owners`: rebuild `_normal_token_owners` by inserting
every mapped value of `_token_to_endpoint_map` into a fresh set. -/
def collect_owners (m : List (Token × Endpoint)) : List Endpoint :=
  m.foldl (fun acc p => insert_unique acc p.2) []

/-- Phase 1 of `update_normal_tokens`: walk `_token_to_endpoint_map`; erase
entries of `ep` whose token is not in the requested set, and drop from the
working token set every token `ep` already owns.  Returns the filtered map
and the remaining working set. -/
def phase1 (ep : Endpoint) : List (Token × Endpoint) → List Token →
    (List (Token × Endpoint) × List Token)
  | [], toks => ([], toks)
  | p :: rest, toks =>
    if p.2 = ep then
      if p.1 ∈ toks then
        let q := phase1 ep rest (erase_one toks p.1)
        (p :: q.1, q.2)
      else
        phase1 ep rest toks
    else
      let q := phase1 ep rest toks
      (p :: q.1, q.2)

/-- `unordered_map::insert` followed by the conditional value overwrite of
phase 2: returns the new map and whether a new key was inserted
(`prev.second`). -/
def insert_token : List (Token × Endpoint) → Token → Endpoint →
    (List (Token × Endpoint) × Bool)
  | [], t, ep => ([(t, ep)], true)
  | p :: rest, t, ep =>
    if p.1 = t then ((t, ep) :: rest, false)
    else
      let q := insert_token rest t ep
      (p :: q.1, q.2)

/-- Phase 2 of `update_normal_tokens`: insert every remaining working token
for `ep`, accumulating `should_sort_tokens` (set when a new key appears). -/
def phase2 (ep : Endpoint) : List Token → List (Token × Endpoint) → Bool →
    (List (Token × Endpoint) × Bool)
  | [], m, b => (m, b)
  | t :: ts, m, b =>
    let q := insert_token m t ep
    phase2 ep ts q.1 (b || q.2)

/-- The mutation body of `update_normal_tokens` (everything after the two
early checks, in source order): phase 1, `remove_by_value(_bootstrap_tokens)`,
`_leaving_endpoints.erase`, `invalidate_cached_rings`, phase 2,
`update_normal_token_owners`, and the conditional `sort_tokens`. -/
def applyUpdateNormal (T : List Token) (ep : Endpoint) (s : TokenMetadata) : TokenMetadata :=
  let q1 := phase1 ep s.token_to_endpoint_map T
  let bt := remove_by_value s.bootstrap_tokens ep
  let lv := erase_elem s.leaving_endpoints ep
  let v := s.static_ring_version + 1
  let q2 := phase2 ep q1.2 q1.1 false
  { s with
    token_to_endpoint_map := q2.1
    bootstrap_tokens := bt
    leaving_endpoints := lv
    ring_version := v
    static_ring_version := v
    normal_token_owners := collect_owners q2.1
    sorted_tokens := if q2.2 then sort_keys q2.1 else s.sorted_tokens }

/-- `token_metadata_impl::update_normal_tokens`: returns immediately on an
empty token set; fails with an internal error when the endpoint is not a
member of the topology; otherwise applies the mutation body. -/
def update_normal_tokens (T : List Token) (ep : Endpoint) (s : TokenMetadata) :
    Except TMError TokenMetadata :=
  if T.isEmpty then Except.ok s
  else if ep ∈ s.topology then Except.ok (applyUpdateNormal T ep s)
  else Except.error TMError.invariantViolation

/-- `update_topology` / `topology::add_or_update_endpoint`.
Modelled from the spec: the `topology` class is outside the verified
sources; spec section 4.1 says add-or-update inserts the endpoint and
records location and optional state.  Only membership is observable by the
verified operations, so dc/rack and state are accepted and dropped. -/
def update_topology (ep : Endpoint) (_dr : DcRack) (_st : Option NodeState)
    (s : TokenMetadata) : TokenMetadata :=
  { s with topology := insert_unique s.topology ep }

/-- `del_replacing_endpoint`: erase the `existing -> replacing` binding. -/
def del_replacing_endpoint (existing : Endpoint) (s : TokenMetadata) : TokenMetadata :=
  { s with replacing_endpoints := erase_key s.replacing_endpoints existing }

/-- `add_replacing_endpoint`: `_replacing_endpoints[existing] = replacing`. -/
def add_replacing_endpoint (existing replacing : Endpoint) (s : TokenMetadata) : TokenMetadata :=
  { s with replacing_endpoints := assoc_assign s.replacing_endpoints existing replacing }

/-- `add_leaving_endpoint`. -/
def add_leaving_endpoint (ep : Endpoint) (s : TokenMetadata) : TokenMetadata :=
  { s with leaving_endpoints := insert_unique s.leaving_endpoints ep }

/-- `del_leaving_endpoint`. -/
def del_leaving_endpoint (ep : Endpoint) (s : TokenMetadata) : TokenMetadata :=
  { s with leaving_endpoints := erase_elem s.leaving_endpoints ep }

/-- `token_metadata_impl::remove_endpoint`: erase the endpoint from the
bootstrap and normal maps, the owner set, the topology, the leaving set and
the replacing map, then invalidate the ring version.  Sorting of the token
vector is deferred to the caller. -/
def remove_endpoint_impl (ep : Endpoint) (s : TokenMetadata) : TokenMetadata :=
  let s1 :=
    { s with
      bootstrap_tokens := remove_by_value s.bootstrap_tokens ep
      token_to_endpoint_map := remove_by_value s.token_to_endpoint_map ep
      normal_token_owners := erase_elem s.normal_token_owners ep
      topology := erase_elem s.topology ep
      leaving_endpoints := erase_elem s.leaving_endpoints ep
      replacing_endpoints := erase_key s.replacing_endpoints ep }
  invalidate_cached_rings s1

/-- `token_metadata::remove_endpoint` (the public operation): the impl
removal followed by `sort_tokens`. -/
def remove_endpoint (ep : Endpoint) (s : TokenMetadata) : TokenMetadata :=
  sort_tokens (remove_endpoint_impl ep s)

/-- The per-token collision test of `add_bootstrap_tokens`: the token is
bound in the given map to an endpoint different from `ep`. -/
def collideB (m : List (Token × Endpoint)) (t : Token) (ep : Endpoint) : Bool :=
  match assoc_find? m t with
  | some v => decide (¬ v = ep)
  | none => false

/-- `token_metadata_impl::add_bootstrap_tokens`: throw on any collision with
a bootstrap or normal token of a different endpoint; otherwise clear every
prior bootstrap token of `ep` and bind every requested token to `ep`. -/
def add_bootstrap_tokens (T : List Token) (ep : Endpoint) (s : TokenMetadata) :
    Except TMError TokenMetadata :=
  if T.any (fun t => collideB s.bootstrap_tokens t ep || collideB s.token_to_endpoint_map t ep) then
    Except.error TMError.tokenCollision
  else
    Except.ok
      { s with
        bootstrap_tokens :=
          T.foldl (fun m t => assoc_assign m t ep) (remove_by_value s.bootstrap_tokens ep) }

/-- `remove_bootstrap_tokens`: erase each requested token from
`_bootstrap_tokens` (warns and does nothing on an empty set). -/
def remove_bootstrap_tokens (T : List Token) (s : TokenMetadata) : TokenMetadata :=
  { s with bootstrap_tokens := T.foldl (fun m t => erase_key m t) s.bootstrap_tokens }

/-! ## Ring lookups -/

/-- `std::lower_bound` on the sorted token vector: the number of leading
elements `< x`. -/
def lowerB : List Token → Token → Nat
  | [], _ => 0
  | t :: ts, x => if t < x then lowerB ts x + 1 else 0

/-- `token_metadata_impl::first_token_index`: throws on an empty ring; else
the lower-bound index of `start`, wrapping to `0` past the end. -/
def first_token_index (start : Token) (s : TokenMetadata) : Except TMError Nat :=
  if s.sorted_tokens.isEmpty then Except.error TMError.emptyRing
  else
    let i := lowerB s.sorted_tokens start
    if i = s.sorted_tokens.length then Except.ok 0 else Except.ok i

/-- `token_metadata_impl::first_token`: `_sorted_tokens[first_token_index(start)]`. -/
def first_token (start : Token) (s : TokenMetadata) : Except TMError Token :=
  match first_token_index start s with
  | Except.error e => Except.error e
  | Except.ok i => Except.ok (s.sorted_tokens.getD i 0)

/-! ## Interval conversions (`range_to_interval` / `interval_to_range`) -/

/-- `token_metadata_impl::range_to_interval`: unbounded sides default to
`minimum_token` / `maximum_token` with the exclusive flag; the four
openness combinations select the four icl constructors. -/
def range_to_interval (r : TokenRange) : IclInterval :=
  let s := match r.rstart with
    | none => (minimumToken, false)
    | some b => (b.value, b.is_inclusive)
  let e := match r.rend with
    | none => (maximumToken, false)
    | some b => (b.value, b.is_inclusive)
  match s.2, e.2 with
  | false, false => ⟨s.1, e.1, IclBoundKind.bopen⟩
  | false, true => ⟨s.1, e.1, IclBoundKind.bleftOpen⟩
  | true, false => ⟨s.1, e.1, IclBoundKind.brightOpen⟩
  | true, true => ⟨s.1, e.1, IclBoundKind.bclosed⟩

/-- `token_metadata_impl::interval_to_range`: rebuild a (bounded) range from
the interval's bounds and openness. -/
def interval_to_range (i : IclInterval) : TokenRange :=
  let f := match i.bounds with
    | IclBoundKind.bopen => (false, false)
    | IclBoundKind.bleftOpen => (false, true)
    | IclBoundKind.brightOpen => (true, false)
    | IclBoundKind.bclosed => (true, true)
  ⟨some ⟨i.lower, f.1⟩, some ⟨i.upper, f.2⟩⟩

/-- The defaulting `range_to_interval` performs on unbounded sides: replace
`none` by an exclusive bound at `minimum_token` / `maximum_token`. -/
def withDefaultBounds (r : TokenRange) : TokenRange :=
  ⟨some (match r.rstart with | none => ⟨minimumToken, false⟩ | some b => b),
   some (match r.rend with | none => ⟨maximumToken, false⟩ | some b => b)⟩

/-! ## Pending ranges -/

/-- Whether an icl interval contains a token, by its bound kind. -/
def interval_contains (i : IclInterval) (t : Token) : Bool :=
  match i.bounds with
  | IclBoundKind.bopen => decide (i.lower < t ∧ t < i.upper)
  | IclBoundKind.bleftOpen => decide (i.lower < t ∧ t ≤ i.upper)
  | IclBoundKind.brightOpen => decide (i.lower ≤ t ∧ t < i.upper)
  | IclBoundKind.bclosed => decide (i.lower ≤ t ∧ t ≤ i.upper)

/-- `token_metadata_impl::pending_endpoints_for`: empty when the keyspace is
absent (fast path 0) or its interval map is empty (fast path 1); otherwise
the endpoint set of the segment containing the token, i.e. the union of the
endpoint sets of every added pair whose interval contains it. -/
def pending_endpoints_for (t : Token) (ks : String) (s : TokenMetadata) : List Endpoint :=
  match assoc_find? s.pending_ranges ks with
  | none => []
  | some m =>
    if m.isEmpty then []
    else
      (m.filter (fun p => interval_contains p.1 t)).foldl
        (fun acc p => p.2.foldl insert_unique acc) []

/-- `set_pending_ranges`: an empty multimap erases the keyspace entry;
otherwise group by range (checking every new endpoint is in the topology,
else internal error) and install the interval map built from the grouped
pairs. -/
def set_pending_ranges (ks : String) (npr : List (TokenRange × Endpoint))
    (s : TokenMetadata) : Except TMError TokenMetadata :=
  if npr.isEmpty then
    Except.ok { s with pending_ranges := erase_key s.pending_ranges ks }
  else if npr.all (fun p => decide (p.2 ∈ s.topology)) then
    Except.ok
      { s with
        pending_ranges :=
          assoc_assign s.pending_ranges ks
            ((npr.foldl (fun acc p => add_to_group acc p.1 p.2) []).map
              (fun p => (range_to_interval p.1, p.2))) }
  else Except.error TMError.invariantViolation

/-- `has_pending_ranges`: some segment of the keyspace's interval map
contains the endpoint. -/
def has_pending_ranges (ks : String) (ep : Endpoint) (s : TokenMetadata) : Bool :=
  match assoc_find? s.pending_ranges ks with
  | none => false
  | some m => m.any (fun p => decide (ep ∈ p.2))

/-- The replication-strategy capability set consumed by the pending-range
engine (`abstract_replication_strategy`): natural endpoints of a token under
a snapshot, and the ranges an endpoint owns under a snapshot. -/
structure Strategy where
  calculate_natural_endpoints : Token → TokenMetadata → List Endpoint
  get_ranges : Endpoint → TokenMetadata → List TokenRange

/-- `clone_only_token_map`: fresh instance holding only the token map, the
owner set, the topology and (optionally) the sorted vector. -/
def clone_only_token_map (clone_sorted : Bool) (s : TokenMetadata) : TokenMetadata :=
  { token_to_endpoint_map := s.token_to_endpoint_map
    normal_token_owners := s.normal_token_owners
    bootstrap_tokens := []
    leaving_endpoints := []
    replacing_endpoints := []
    pending_ranges := []
    sorted_tokens := if clone_sorted then s.sorted_tokens else []
    topology := s.topology
    ring_version := 0
    static_ring_version := s.static_ring_version }

/-- `clone_async`: a full deep copy (every member, including
`_ring_version`). -/
def clone_async (s : TokenMetadata) : TokenMetadata := s

/-- `clone_after_all_left`: clone only the token map (without the sorted
vector), remove every leaving endpoint, then sort. -/
def clone_after_all_left (s : TokenMetadata) : TokenMetadata :=
  sort_tokens
    (s.leaving_endpoints.foldl (fun acc e => remove_endpoint_impl e acc)
      (clone_only_token_map false s))

/-- `calculate_pending_ranges_for_replacing`: every range owned by a
replaced node becomes pending for its replacement. -/
def calc_replacing (strat : Strategy) (s : TokenMetadata) : List (TokenRange × Endpoint) :=
  s.replacing_endpoints.foldl
    (fun acc p => acc ++ (strat.get_ranges p.1 s).map (fun r => (r, p.2))) []

/-- `calculate_pending_ranges_for_leaving`: for every range affected by a
leaving node, every natural endpoint under the after-all-left ring that is
not one under the current ring becomes a pending owner. -/
def calc_leaving (strat : Strategy) (s : TokenMetadata) (all_left : TokenMetadata) :
    List (TokenRange × Endpoint) :=
  if s.leaving_endpoints.isEmpty then []
  else
    let affected := s.leaving_endpoints.foldl
      (fun acc e => (strat.get_ranges e s).foldl insert_unique acc) []
    let metadata := clone_only_token_map true s
    affected.foldl
      (fun acc r =>
        let t := match r.rend with
          | some b => b.value
          | none => maximumToken
        let cur := strat.calculate_natural_endpoints t metadata
        let nw := strat.calculate_natural_endpoints t all_left
        acc ++ (nw.filter (fun e => decide (e ∉ cur))).map (fun e => (r, e))) []

/-- `calculate_pending_ranges_for_bootstrap`: add each bootstrapping
endpoint (grouped with its tokens) to the after-all-left clone as joining,
install its tokens as normal, record its ranges as pending, remove it again;
finally re-sort the clone. -/
def calc_bootstrap (strat : Strategy) (dcr : Endpoint → DcRack) :
    List (Endpoint × List Token) → TokenMetadata → List (TokenRange × Endpoint) →
    Except TMError (TokenMetadata × List (TokenRange × Endpoint))
  | [], alm, npr => Except.ok (sort_tokens alm, npr)
  | g :: rest, alm, npr =>
    let alm1 := update_topology g.1 (dcr g.1) (some NodeState.joining) alm
    match update_normal_tokens g.2 g.1 alm1 with
    | Except.error e => Except.error e
    | Except.ok alm2 =>
      calc_bootstrap strat dcr rest (remove_endpoint_impl g.1 alm2)
        (npr ++ (strat.get_ranges g.1 alm2).map (fun r => (r, g.1)))

/-- `token_metadata_impl::update_pending_ranges`: when the bootstrap,
leaving and replacing sets are all empty, skip computation and install the
empty pending-range multimap for the keyspace; otherwise accumulate the
replacing, leaving and bootstrap contributions and install them. -/
def update_pending_ranges (strat : Strategy) (dcr : Endpoint → DcRack) (ks : String)
    (s : TokenMetadata) : Except TMError TokenMetadata :=
  if s.bootstrap_tokens.isEmpty && s.leaving_endpoints.isEmpty &&
      s.replacing_endpoints.isEmpty then
    set_pending_ranges ks [] s
  else
    let npr0 := calc_replacing strat s
    let alm := clone_after_all_left s
    let npr1 := npr0 ++ calc_leaving strat s alm
    match calc_bootstrap strat dcr
        (s.bootstrap_tokens.foldl (fun acc p => add_to_group acc p.2 p.1) []) alm npr1 with
    | Except.error e => Except.error e
    | Except.ok pr => set_pending_ranges ks pr.2 s

/-! ## The shared publisher (`shared_token_metadata`) -/

/-- `shared_token_metadata`: the published snapshot pointer of one shard. -/
structure SharedTokenMetadata where
  shared : TokenMetadata
  deriving Repr

/-- `shared_token_metadata::set`: refuses (internal error) any candidate
whose ring version is not strictly greater than the published one; else
publishes the candidate. -/
def shared_set (stm : SharedTokenMetadata) (tmptr : TokenMetadata) :
    Except TMError SharedTokenMetadata :=
  if stm.shared.ring_version ≥ tmptr.ring_version then
    Except.error TMError.invariantViolation
  else Except.ok ⟨tmptr⟩

/-- `shared_token_metadata::mutate_token_metadata`: under the exclusive lock,
clone the published snapshot, bump its ring version, run the caller's
mutation, and publish through `set`.  A failure anywhere before `set`
propagates and leaves the published snapshot untouched (the clone is
discarded). -/
def mutate_token_metadata (stm : SharedTokenMetadata)
    (f : TokenMetadata → Except TMError TokenMetadata) :
    SharedTokenMetadata × Option TMError :=
  let tm := invalidate_cached_rings (clone_async stm.shared)
  match f tm with
  | Except.error e => (stm, some e)
  | Except.ok tm2 =>
    match shared_set stm tm2 with
    | Except.error e => (stm, some e)
    | Except.ok stm2 => (stm2, none)

/-! ## Derived notions used by the verified properties -/

/-- Equality of two metadata states on every member except the ring-version
counters. -/
def agree_except_version (a b : TokenMetadata) : Prop :=
  a.token_to_endpoint_map = b.token_to_endpoint_map ∧
  a.normal_token_owners = b.normal_token_owners ∧
  a.bootstrap_tokens = b.bootstrap_tokens ∧
  a.leaving_endpoints = b.leaving_endpoints ∧
  a.replacing_endpoints = b.replacing_endpoints ∧
  a.pending_ranges = b.pending_ranges ∧
  a.sorted_tokens = b.sorted_tokens ∧
  a.topology = b.topology

/-- The sorted-token invariant (spec section 8, invariant 1) together with
the key-uniqueness guarantee of `unordered_map`. -/
def SortedInv (s : TokenMetadata) : Prop :=
  (s.token_to_endpoint_map.map Prod.fst).Nodup ∧
  s.sorted_tokens = sort_keys s.token_to_endpoint_map

/-- One public mutation step of `token_metadata`.  The
`upd_normal` constructor additionally records the proviso under which the
sorted-token invariant is preserved: the call either retains every token the
endpoint currently owns, or inserts at least one token that is new to the
map (an update that erases tokens while inserting none skips the re-sort;
see the C3 counterexample). -/
inductive GoodStep : TokenMetadata → TokenMetadata → Prop where
  | upd_topology : ∀ (s : TokenMetadata) (e : Endpoint) (dr : DcRack) (st : Option NodeState),
      GoodStep s (update_topology e dr st s)
  | upd_normal : ∀ (s s2 : TokenMetadata) (T : List Token) (e : Endpoint),
      ((∀ t, (t, e) ∈ s.token_to_endpoint_map → t ∈ T) ∨
        (∃ t, t ∈ T ∧ t ∉ s.token_to_endpoint_map.map Prod.fst)) →
      update_normal_tokens T e s = Except.ok s2 → GoodStep s s2
  | rm_endpoint : ∀ (s : TokenMetadata) (e : Endpoint), GoodStep s (remove_endpoint e s)
  | add_boot : ∀ (s s2 : TokenMetadata) (T : List Token) (e : Endpoint),
      add_bootstrap_tokens T e s = Except.ok s2 → GoodStep s s2
  | rm_boot : ∀ (s : TokenMetadata) (T : List Token), GoodStep s (remove_bootstrap_tokens T s)
  | add_leaving : ∀ (s : TokenMetadata) (e : Endpoint), GoodStep s (add_leaving_endpoint e s)
  | del_leaving : ∀ (s : TokenMetadata) (e : Endpoint), GoodStep s (del_leaving_endpoint e s)
  | add_replacing : ∀ (s : TokenMetadata) (a b : Endpoint),
      GoodStep s (add_replacing_endpoint a b s)
  | del_replacing : ∀ (s : TokenMetadata) (a : Endpoint), GoodStep s (del_replacing_endpoint a s)

/-- States reachable from a fresh instance through the public mutation
operations (with the `upd_normal` proviso above). -/
inductive ReachableGood : TokenMetadata → Prop where
  | init : ReachableGood initTM
  | step : ∀ (s s2 : TokenMetadata), ReachableGood s → GoodStep s s2 → ReachableGood s2

/-! ## Concrete fixtures for witnesses and counterexamples -/

/-- A fresh instance whose topology contains endpoint `0`. -/
def tmTopo : TokenMetadata := update_topology 0 ⟨"", ""⟩ none initTM

/-- `tmTopo` after `update_normal_tokens({1, 2}, 0)`. -/
def c3mid : TokenMetadata :=
  { token_to_endpoint_map := [(1, 0), (2, 0)]
    normal_token_owners := [0]
    bootstrap_tokens := []
    leaving_endpoints := []
    replacing_endpoints := []
    pending_ranges := []
    sorted_tokens := [1, 2]
    topology := [0]
    ring_version := 1
    static_ring_version := 1 }

/-- `c3mid` after `update_normal_tokens({1}, 0)`: token `2` is gone from
the map but still present in `sorted_tokens`. -/
def c3bad : TokenMetadata :=
  { c3mid with
    token_to_endpoint_map := [(1, 0)]
    ring_version := 2
    static_ring_version := 2 }

/-- `tmTopo` after one `update_normal_tokens({1}, 0)`. -/
def c8once : TokenMetadata :=
  { token_to_endpoint_map := [(1, 0)]
    normal_token_owners := [0]
    bootstrap_tokens := []
    leaving_endpoints := []
    replacing_endpoints := []
    pending_ranges := []
    sorted_tokens := [1]
    topology := [0]
    ring_version := 1
    static_ring_version := 1 }

/-- `c8once` after a second, identical `update_normal_tokens({1}, 0)`: the
same state except the ring-version counters. -/
def c8twice : TokenMetadata :=
  { c8once with ring_version := 2, static_ring_version := 2 }

/-- A three-token ring used by the `first_token` witness. -/
def c5ring : TokenMetadata := { initTM with sorted_tokens := [10, 20, 30] }

/-- A trivial replication strategy for witnesses. -/
def strat0 : Strategy := ⟨fun _ _ => [], fun _ _ => []⟩

/-- A trivial dc/rack provider for witnesses. -/
def dcr0 : Endpoint → DcRack := fun _ => ⟨"", ""⟩

/-- A publisher holding a fresh snapshot. -/
def stm0 : SharedTokenMetadata := ⟨initTM⟩

/-- A snapshot with ring version `1`. -/
def cand1 : TokenMetadata := { initTM with ring_version := 1, static_ring_version := 1 }

/-! ## Container lemmas -/

theorem assoc_find?_erase_key {α β : Type} [DecidableEq α] (l : List (α × β)) (a : α) :
    assoc_find? (erase_key l a) a = none := by
  induction l with
  | nil => rfl
  | cons p rest ih =>
    by_cases h : p.1 = a
    · simpa [erase_key, h]
    · simp [erase_key, h, assoc_find?, ih]

theorem mem_remove_by_value {α β : Type} [DecidableEq β] {m : List (α × β)} {v : β}
    {p : α × β} : p ∈ remove_by_value m v ↔ p ∈ m ∧ p.2 ≠ v := by
  induction m with
  | nil => simp [remove_by_value]
  | cons q rest ih =>
    by_cases h : q.2 = v
    · simp only [remove_by_value, if_pos h, ih, List.mem_cons]
      constructor
      · exact fun hp => ⟨Or.inr hp.1, hp.2⟩
      · rintro ⟨hq | hm, hv⟩
        · subst hq; exact absurd h hv
        · exact ⟨hm, hv⟩
    · simp only [remove_by_value, if_neg h, List.mem_cons, ih]
      constructor
      · rintro (rfl | hp)
        · exact ⟨Or.inl rfl, h⟩
        · exact ⟨Or.inr hp.1, hp.2⟩
      · rintro ⟨hq | hm, hv⟩
        · exact Or.inl hq
        · exact Or.inr ⟨hm, hv⟩

theorem remove_by_value_idem {α β : Type} [DecidableEq β] (m : List (α × β)) (v : β) :
    remove_by_value (remove_by_value m v) v = remove_by_value m v := by
  induction m with
  | nil => rfl
  | cons q rest ih =>
    by_cases h : q.2 = v
    · simp [remove_by_value, h, ih]
    · simp [remove_by_value, h, ih]

theorem remove_by_value_sublist {α β : Type} [DecidableEq β] (m : List (α × β)) (v : β) :
    (remove_by_value m v).Sublist m := by
  induction m with
  | nil => exact List.Sublist.refl _
  | cons q rest ih =>
    by_cases h : q.2 = v
    · simp only [remove_by_value, if_pos h]
      exact ih.cons q
    · simp only [remove_by_value, if_neg h]
      exact ih.cons₂ q

theorem erase_elem_idem {α : Type} [DecidableEq α] (l : List α) (a : α) :
    erase_elem (erase_elem l a) a = erase_elem l a := by
  induction l with
  | nil => rfl
  | cons x rest ih =>
    by_cases h : x = a
    · simp [erase_elem, h, ih]
    · simp [erase_elem, h, ih]

theorem mem_erase_one_of_ne {l : List Token} {t a : Token} (hne : t ≠ a) (h : t ∈ l) :
    t ∈ erase_one l a := by
  induction l with
  | nil => simp at h
  | cons x rest ih =>
    rcases List.mem_cons.mp h with rfl | hmem
    · by_cases hx : t = a
      · exact absurd hx hne
      · simp [erase_one, hx]
    · by_cases hx : x = a
      · simpa [erase_one, hx] using hmem
      · simp only [erase_one, if_neg hx]
        exact List.mem_cons_of_mem x (ih hmem)

theorem mem_of_mem_erase_one {l : List Token} {t a : Token} (h : t ∈ erase_one l a) :
    t ∈ l := by
  induction l with
  | nil => simp [erase_one] at h
  | cons x rest ih =>
    by_cases hx : x = a
    · simp only [erase_one, if_pos hx] at h
      exact List.mem_cons_of_mem x h
    · simp only [erase_one, if_neg hx] at h
      rcases List.mem_cons.mp h with rfl | hmem
      · exact List.mem_cons_self _ _
      · exact List.mem_cons_of_mem x (ih hmem)

theorem assoc_find?_eq_none {α β : Type} [DecidableEq α] {m : List (α × β)} {a : α} :
    assoc_find? m a = none ↔ a ∉ m.map Prod.fst := by
  induction m with
  | nil => simp [assoc_find?]
  | cons p rest ih =>
    by_cases h : p.1 = a
    · simp [assoc_find?, h]
    · simp [assoc_find?, h, ih, Ne.symm h]

theorem assoc_find?_mem {α β : Type} [DecidableEq α] {m : List (α × β)} {a : α} {b : β}
    (h : assoc_find? m a = some b) : (a, b) ∈ m := by
  induction m with
  | nil => simp [assoc_find?] at h
  | cons p rest ih =>
    by_cases hp : p.1 = a
    · simp only [assoc_find?, if_pos hp, Option.some_inj] at h
      subst h; subst hp
      exact List.mem_cons_self _ _
    · simp only [assoc_find?, if_neg hp] at h
      exact List.mem_cons_of_mem p (ih h)

theorem assoc_find?_of_mem_nodup {α β : Type} [DecidableEq α] {m : List (α × β)} {a : α}
    {b : β} (hn : (m.map Prod.fst).Nodup) (h : (a, b) ∈ m) : assoc_find? m a = some b := by
  induction m with
  | nil => simp at h
  | cons p rest ih =>
    simp only [List.map_cons, List.nodup_cons] at hn
    rcases List.mem_cons.mp h with rfl | hmem
    · simp [assoc_find?]
    · have hne : p.1 ≠ a := by
        intro he
        exact hn.1 (he ▸ List.mem_map_of_mem Prod.fst hmem)
      simp only [assoc_find?, if_neg hne]
      exact ih hn.2 hmem

theorem assoc_assign_append {α β : Type} [DecidableEq α] {m : List (α × β)} {a : α}
    (b : β) (h : a ∉ m.map Prod.fst) : assoc_assign m a b = m ++ [(a, b)] := by
  induction m with
  | nil => rfl
  | cons p rest ih =>
    simp only [List.map_cons, List.mem_cons, not_or] at h
    simp only [assoc_assign, List.cons_append]
    rw [if_neg (fun he => h.1 he.symm), ih h.2]

/-! ## C10 -/

/-- C10: for every endpoint `e` (in the topology or not),
`update_normal_tokens(∅, e)` succeeds and leaves the whole state unchanged:
the early return fires before the topology-membership check, so nothing is
removed, the bootstrap and leaving sets keep `e`, and the ring version is
not incremented. -/
theorem c10_update_normal_tokens_empty_noop (s : TokenMetadata) (e : Endpoint) :
    update_normal_tokens [] e s = Except.ok s := rfl

/-! ## C4 -/

/-- C4 counterexample: with the empty token set, `update_normal_tokens`
succeeds even for an endpoint absent from the topology, so the claim
"fails whenever `e` is not present in the topology" is false as stated. -/
theorem c4_counterexample :
    (0 : Endpoint) ∉ initTM.topology ∧
    update_normal_tokens [] 0 initTM = Except.ok initTM :=
  ⟨by decide, rfl⟩

/-- C4 (amended): for every NON-EMPTY token set `T`,
`update_normal_tokens(T, e)` fails with invariant-violation exactly when `e`
is not in the topology, and succeeds when it is. -/
theorem c4_update_normal_tokens_topology_check (s : TokenMetadata) (T : List Token)
    (e : Endpoint) (hT : T ≠ []) :
    (e ∉ s.topology → update_normal_tokens T e s = Except.error TMError.invariantViolation) ∧
    (e ∈ s.topology → update_normal_tokens T e s = Except.ok (applyUpdateNormal T e s)) := by
  have hE : T.isEmpty = false := by
    cases T with
    | nil => exact absurd rfl hT
    | cons a l => rfl
  constructor
  · intro h
    simp [update_normal_tokens, hE, h]
  · intro h
    simp [update_normal_tokens, hE, h]

theorem c4_witness :
    update_normal_tokens [1] 0 initTM = Except.error TMError.invariantViolation :=
  (c4_update_normal_tokens_topology_check initTM [1] 0 (by decide)).1 (by decide)

/-! ## C1 -/

/-- C1: `shared_token_metadata::set` refuses (internal invariant-violation)
any candidate whose ring version is not strictly above the published one,
and any successful `set` publishes the candidate with a strictly greater
ring version — so the sequence of published versions is strictly
increasing. -/
theorem c1_shared_set_version_strictly_increases (stm : SharedTokenMetadata)
    (cand : TokenMetadata) :
    (cand.ring_version ≤ stm.shared.ring_version →
      shared_set stm cand = Except.error TMError.invariantViolation) ∧
    (∀ stm2, shared_set stm cand = Except.ok stm2 →
      stm2.shared = cand ∧ stm.shared.ring_version < stm2.shared.ring_version) := by
  constructor
  · intro h
    simp [shared_set, h]
  · intro stm2 h
    by_cases hc : stm.shared.ring_version ≥ cand.ring_version
    · simp [shared_set, hc] at h
    · simp only [shared_set, if_neg hc] at h
      obtain rfl : SharedTokenMetadata.mk cand = stm2 := by
        simpa using h
      exact ⟨rfl, lt_of_not_ge hc⟩

theorem c1_witness :
    shared_set stm0 initTM = Except.error TMError.invariantViolation ∧
    stm0.shared.ring_version < (SharedTokenMetadata.mk cand1).shared.ring_version :=
  ⟨(c1_shared_set_version_strictly_increases stm0 initTM).1 (by decide),
   ((c1_shared_set_version_strictly_increases stm0 cand1).2 ⟨cand1⟩ rfl).2⟩

/-! ## C2 -/

/-- C2: if the caller-supplied mutation function fails before the new
snapshot is installed, `mutate_token_metadata` propagates the error and the
published snapshot is unchanged (the partially built clone is discarded). -/
theorem c2_mutation_failure_preserves_snapshot (stm : SharedTokenMetadata)
    (f : TokenMetadata → Except TMError TokenMetadata) (e : TMError)
    (h : f (invalidate_cached_rings (clone_async stm.shared)) = Except.error e) :
    mutate_token_metadata stm f = (stm, some e) := by
  simp [mutate_token_metadata, h]

theorem c2_witness :
    mutate_token_metadata stm0 (fun _ => Except.error TMError.tokenCollision) =
      (stm0, some TMError.tokenCollision) :=
  c2_mutation_failure_preserves_snapshot stm0 _ TMError.tokenCollision rfl

/-! ## C7 -/

/-- C7: `interval_to_range` inverts `range_to_interval` for every
combination of bound openness; unbounded sides come back as explicit bounds
defaulted to `minimum_token` / `maximum_token`, and on fully bounded ranges
the round trip is the identity. -/
theorem c7_interval_range_round_trip (r : TokenRange) :
    interval_to_range (range_to_interval r) = withDefaultBounds r ∧
    (∀ a b, r.rstart = some a → r.rend = some b →
      interval_to_range (range_to_interval r) = r) := by
  obtain ⟨os, oe⟩ := r
  refine ⟨?_, ?_⟩
  · rcases os with _ | ⟨v, i⟩ <;> rcases oe with _ | ⟨w, j⟩
    · rfl
    · cases j <;> rfl
    · cases i <;> rfl
    · cases i <;> cases j <;> rfl
  · rintro ⟨va, ia⟩ ⟨vb, ib⟩ rfl rfl
    cases ia <;> cases ib <;> rfl

theorem c7_witness :
    interval_to_range (range_to_interval ⟨some ⟨3, true⟩, some ⟨7, false⟩⟩) =
      (⟨some ⟨3, true⟩, some ⟨7, false⟩⟩ : TokenRange) :=
  (c7_interval_range_round_trip ⟨some ⟨3, true⟩, some ⟨7, false⟩⟩).2
    ⟨3, true⟩ ⟨7, false⟩ rfl rfl

/-! ## C6 -/

/-- C6: `pending_endpoints_for` returns the empty sequence when the keyspace
has no entry in the pending-range map or its interval map is empty; and
after `update_pending_ranges` runs for a keyspace while the bootstrap,
leaving and replacing sets are all empty (the fast path), every token's
pending endpoints for that keyspace are empty. -/
theorem c6_pending_endpoints_empty_cases (s : TokenMetadata) (t : Token) (ks : String)
    (strat : Strategy) (dcr : Endpoint → DcRack) :
    ((assoc_find? s.pending_ranges ks = none ∨ assoc_find? s.pending_ranges ks = some []) →
      pending_endpoints_for t ks s = []) ∧
    (s.bootstrap_tokens = [] → s.leaving_endpoints = [] → s.replacing_endpoints = [] →
      update_pending_ranges strat dcr ks s =
        Except.ok { s with pending_ranges := erase_key s.pending_ranges ks } ∧
      ∀ t2, pending_endpoints_for t2 ks
        { s with pending_ranges := erase_key s.pending_ranges ks } = []) := by
  constructor
  · rintro (h | h) <;> simp [pending_endpoints_for, h]
  · intro h1 h2 h3
    constructor
    · simp [update_pending_ranges, h1, h2, h3, set_pending_ranges]
    · intro t2
      simp [pending_endpoints_for, assoc_find?_erase_key]

theorem c6_witness :
    update_pending_ranges strat0 dcr0 "ks" initTM =
      Except.ok { initTM with pending_ranges := erase_key initTM.pending_ranges "ks" } ∧
    pending_endpoints_for 5 "ks" initTM = [] :=
  ⟨((c6_pending_endpoints_empty_cases initTM 5 "ks" strat0 dcr0).2 rfl rfl rfl).1,
   (c6_pending_endpoints_empty_cases initTM 5 "ks" strat0 dcr0).1 (Or.inl rfl)⟩

/-! ## C5 -/

theorem lowerB_le_length (l : List Token) (x : Token) : lowerB l x ≤ l.length := by
  induction l with
  | nil => simp [lowerB]
  | cons t ts ih =>
    by_cases h : t < x
    · simpa [lowerB, h] using Nat.succ_le_succ ih
    · simp [lowerB, h]

theorem lowerB_eq_length (l : List Token) (x : Token) (h : ∀ u ∈ l, u < x) :
    lowerB l x = l.length := by
  induction l with
  | nil => rfl
  | cons t ts ih =>
    have ht : t < x := h t (List.mem_cons_self _ _)
    simp [lowerB, ht, ih (fun u hu => h u (List.mem_cons_of_mem t hu))]

theorem lowerB_spec (l : List Token) (x : Token) (hs : l.Sorted (fun a b => a ≤ b)) :
    (∀ u ∈ l, u < x) ∨
    (lowerB l x < l.length ∧ l.getD (lowerB l x) 0 ∈ l ∧ x ≤ l.getD (lowerB l x) 0 ∧
      ∀ u ∈ l, x ≤ u → l.getD (lowerB l x) 0 ≤ u) := by
  induction l with
  | nil => exact Or.inl (by simp)
  | cons t ts ih =>
    obtain ⟨hhead, htail⟩ := List.sorted_cons.mp hs
    by_cases hlt : t < x
    · rcases ih htail with hall | ⟨hl, hmem, hge, hmin⟩
      · left
        intro u hu
        rcases List.mem_cons.mp hu with rfl | hu2
        · exact hlt
        · exact hall u hu2
      · right
        have hL : lowerB (t :: ts) x = lowerB ts x + 1 := by simp [lowerB, hlt]
        have hg : (t :: ts).getD (lowerB (t :: ts) x) 0 = ts.getD (lowerB ts x) 0 := by
          rw [hL]; rfl
        refine ⟨?_, ?_, ?_, ?_⟩
        · rw [hL]; simpa using Nat.succ_lt_succ hl
        · rw [hg]; exact List.mem_cons_of_mem t hmem
        · rw [hg]; exact hge
        · intro u hu hxu
          rw [hg]
          rcases List.mem_cons.mp hu with rfl | hu2
          · exact absurd hxu (not_le.mpr hlt)
          · exact hmin u hu2 hxu
    · right
      have hL : lowerB (t :: ts) x = 0 := by simp [lowerB, hlt]
      refine ⟨?_, ?_, ?_, ?_⟩
      · rw [hL]; simp
      · rw [hL]; simp
      · rw [hL]; simpa using not_lt.mp hlt
      · intro u hu hxu
        rw [hL]
        rcases List.mem_cons.mp hu with rfl | hu2
        · simp
        · simpa using hhead u hu2

/-- C5: on a non-empty sorted ring, `first_token(start)` returns the
smallest token `≥ start`, wrapping to `sorted_tokens[0]` when `start`
exceeds every token; on an empty ring it fails with the empty-ring error. -/
theorem c5_first_token_spec (s : TokenMetadata) (start : Token)
    (hs : s.sorted_tokens.Sorted (fun a b => a ≤ b)) :
    (s.sorted_tokens = [] → first_token start s = Except.error TMError.emptyRing) ∧
    ((∃ u ∈ s.sorted_tokens, start ≤ u) →
      ∃ t, first_token start s = Except.ok t ∧ t ∈ s.sorted_tokens ∧ start ≤ t ∧
        ∀ u ∈ s.sorted_tokens, start ≤ u → t ≤ u) ∧
    (s.sorted_tokens ≠ [] → (∀ u ∈ s.sorted_tokens, u < start) →
      first_token start s = Except.ok (s.sorted_tokens.getD 0 0)) := by
  refine ⟨?_, ?_, ?_⟩
  · intro h
    simp [first_token, first_token_index, h]
  · rintro ⟨u, hu, hxu⟩
    have hne : s.sorted_tokens ≠ [] := by
      intro h; rw [h] at hu; simp at hu
    have hE : s.sorted_tokens.isEmpty = false := by
      cases h : s.sorted_tokens with
      | nil => exact absurd h hne
      | cons a l => rfl
    rcases lowerB_spec s.sorted_tokens start hs with hall | ⟨hl, hmem, hge, hmin⟩
    · exact absurd (hall u hu) (not_lt.mpr hxu)
    · refine ⟨s.sorted_tokens.getD (lowerB s.sorted_tokens start) 0, ?_, hmem, hge, hmin⟩
      have hil : lowerB s.sorted_tokens start ≠ s.sorted_tokens.length := Nat.ne_of_lt hl
      simp [first_token, first_token_index, hE, hil]
  · intro hne hall
    have hE : s.sorted_tokens.isEmpty = false := by
      cases h : s.sorted_tokens with
      | nil => exact absurd h hne
      | cons a l => rfl
    have hL := lowerB_eq_length s.sorted_tokens start hall
    simp [first_token, first_token_index, hE, hL]

theorem c5_witness :
    first_token 25 c5ring = Except.ok 30 ∧ first_token 100 c5ring = Except.ok 10 := by
  have h := c5_first_token_spec c5ring 25 (by decide)
  have h2 := c5_first_token_spec c5ring 100 (by decide)
  constructor
  · obtain ⟨t, hok, hmem, hge, hmin⟩ := h.2.1 ⟨30, by decide, by decide⟩
    have ht : t = 30 := by
      have h30 : t ≤ 30 := hmin 30 (by decide) (by decide)
      interval_cases t <;> revert hmem hge <;> decide
    rw [ht] at hok
    exact hok
  · exact h2.2.2 (by decide) (by decide)

/-! ## C9 -/

theorem collideB_eq_true {m : List (Token × Endpoint)} {t : Token} {ep : Endpoint} :
    collideB m t ep = true ↔ ∃ v, assoc_find? m t = some v ∧ v ≠ ep := by
  unfold collideB
  cases h : assoc_find? m t with
  | none => simp
  | some v => simp

theorem foldl_assoc_assign_append (ep : Endpoint) (T : List Token)
    (base : List (Token × Endpoint)) (hT : T.Nodup)
    (hb : ∀ t ∈ T, t ∉ base.map Prod.fst) :
    T.foldl (fun m t => assoc_assign m t ep) base = base ++ T.map (fun t => (t, ep)) := by
  induction T generalizing base with
  | nil => simp
  | cons t ts ih =>
    have hstep : assoc_assign base t ep = base ++ [(t, ep)] :=
      assoc_assign_append ep (hb t (List.mem_cons_self _ _))
    have hts : ts.Nodup := (List.nodup_cons.mp hT).2
    have htni : t ∉ ts := (List.nodup_cons.mp hT).1
    have hb2 : ∀ u ∈ ts, u ∉ (base ++ [(t, ep)]).map Prod.fst := by
      intro u hu
      simp only [List.map_append, List.mem_append]
      rintro (h1 | h2)
      · exact hb u (List.mem_cons_of_mem t hu) h1
      · simp at h2
        subst h2
        exact htni hu
    calc (t :: ts).foldl (fun m u => assoc_assign m u ep) base
        = ts.foldl (fun m u => assoc_assign m u ep) (base ++ [(t, ep)]) := by
          simp [hstep]
      _ = base ++ [(t, ep)] ++ ts.map (fun u => (u, ep)) := ih _ hts hb2
      _ = base ++ (t :: ts).map (fun u => (u, ep)) := by simp

/-- C9: `add_bootstrap_tokens(T, e)` fails with a token-collision error
exactly when some token of `T` is already a bootstrap token or a normal
token of a different endpoint; otherwise it first removes every prior
bootstrap token of `e` and then binds every token of `T` to `e`. -/
theorem c9_add_bootstrap_tokens_spec (s : TokenMetadata) (T : List Token) (ep : Endpoint)
    (hT : T.Nodup) (hk : (s.bootstrap_tokens.map Prod.fst).Nodup) :
    ((∃ t ∈ T, (∃ v, assoc_find? s.bootstrap_tokens t = some v ∧ v ≠ ep) ∨
        (∃ v, assoc_find? s.token_to_endpoint_map t = some v ∧ v ≠ ep)) →
      add_bootstrap_tokens T ep s = Except.error TMError.tokenCollision) ∧
    ((∀ t ∈ T, (∀ v, assoc_find? s.bootstrap_tokens t = some v → v = ep) ∧
        (∀ v, assoc_find? s.token_to_endpoint_map t = some v → v = ep)) →
      add_bootstrap_tokens T ep s = Except.ok
        { s with bootstrap_tokens :=
            remove_by_value s.bootstrap_tokens ep ++ T.map (fun t => (t, ep)) }) := by
  constructor
  · rintro ⟨t, ht, hcol⟩
    have hany : T.any (fun t => collideB s.bootstrap_tokens t ep ||
        collideB s.token_to_endpoint_map t ep) = true := by
      rw [List.any_eq_true]
      refine ⟨t, ht, ?_⟩
      rw [Bool.or_eq_true, collideB_eq_true, collideB_eq_true]
      exact hcol
    simp [add_bootstrap_tokens, hany]
  · intro hno
    have hany : T.any (fun t => collideB s.bootstrap_tokens t ep ||
        collideB s.token_to_endpoint_map t ep) = false := by
      rw [Bool.eq_false_iff]
      intro hcon
      rw [List.any_eq_true] at hcon
      obtain ⟨t, ht, hcol⟩ := hcon
      rw [Bool.or_eq_true, collideB_eq_true, collideB_eq_true] at hcol
      rcases hcol with ⟨v, hfind, hv⟩ | ⟨v, hfind, hv⟩
      · exact hv ((hno t ht).1 v hfind)
      · exact hv ((hno t ht).2 v hfind)
    have hb : ∀ t ∈ T, t ∉ (remove_by_value s.bootstrap_tokens ep).map Prod.fst := by
      intro t ht hmem
      obtain ⟨⟨t2, v⟩, hpm, hfst⟩ := List.mem_map.mp hmem
      simp only at hfst
      obtain ⟨hin, hne⟩ := mem_remove_by_value.mp hpm
      apply hne
      refine (hno t2 ?_).1 v (assoc_find?_of_mem_nodup hk hin)
      rw [hfst]
      exact ht
    simp only [add_bootstrap_tokens, hany, Bool.false_eq_true, if_false]
    rw [foldl_assoc_assign_append ep T _ hT hb]

theorem c9_witness :
    add_bootstrap_tokens [1] 1 c8once = Except.error TMError.tokenCollision ∧
    add_bootstrap_tokens [7] 1 c8once = Except.ok
      { c8once with bootstrap_tokens :=
          remove_by_value c8once.bootstrap_tokens 1 ++ [(7, 1)] } :=
  ⟨(c9_add_bootstrap_tokens_spec c8once [1] 1 (by decide) (by decide)).1
      ⟨1, by decide, Or.inr ⟨0, by decide, by decide⟩⟩,
   (c9_add_bootstrap_tokens_spec c8once [7] 1 (by decide) (by decide)).2
      (by
        intro t ht
        have h7 : t = 7 := by simpa using ht
        subst h7
        constructor
        · intro v hv
          simp [c8once, assoc_find?] at hv
        · intro v hv
          simp [c8once, assoc_find?] at hv)⟩

/-! ## Lemmas about the two phases of `update_normal_tokens` -/

theorem phase1_fst_sublist (ep : Endpoint) (m : List (Token × Endpoint)) (toks : List Token) :
    (phase1 ep m toks).1.Sublist m := by
  induction m generalizing toks with
  | nil => simp [phase1]
  | cons p rest ih =>
    by_cases h1 : p.2 = ep
    · by_cases h2 : p.1 ∈ toks
      · simp only [phase1, if_pos h1, if_pos h2]
        exact (ih _).cons₂ p
      · simp only [phase1, if_pos h1, if_neg h2]
        exact (ih _).cons p
    · simp only [phase1, if_neg h1]
      exact (ih _).cons₂ p

theorem phase1_ep_key_mem (ep : Endpoint) (m : List (Token × Endpoint)) (toks : List Token)
    {t : Token} (h : (t, ep) ∈ (phase1 ep m toks).1) : t ∈ toks := by
  induction m generalizing toks with
  | nil => simp [phase1] at h
  | cons p rest ih =>
    by_cases h1 : p.2 = ep
    · by_cases h2 : p.1 ∈ toks
      · simp only [phase1, if_pos h1, if_pos h2] at h
        rcases List.mem_cons.mp h with he | hm
        · rw [← he] at h2
          exact h2
        · exact mem_of_mem_erase_one (ih _ hm)
      · simp only [phase1, if_pos h1, if_neg h2] at h
        exact ih _ h
    · simp only [phase1, if_neg h1] at h
      rcases List.mem_cons.mp h with he | hm
      · exact absurd (congrArg Prod.snd he).symm h1
      · exact ih _ hm

theorem phase1_id (ep : Endpoint) (m : List (Token × Endpoint)) (toks : List Token)
    (hn : (m.map Prod.fst).Nodup) (h : ∀ t, (t, ep) ∈ m → t ∈ toks) :
    (phase1 ep m toks).1 = m := by
  induction m generalizing toks with
  | nil => rfl
  | cons p rest ih =>
    simp only [List.map_cons, List.nodup_cons] at hn
    by_cases h1 : p.2 = ep
    · have hpq : (p.1, ep) = p := by
        rw [← h1]
      have hp : p.1 ∈ toks := h p.1 (by rw [hpq]; exact List.mem_cons_self _ _)
      simp only [phase1, if_pos h1, if_pos hp]
      have hcond : ∀ t, (t, ep) ∈ rest → t ∈ erase_one toks p.1 := by
        intro t ht
        have htoks : t ∈ toks := h t (List.mem_cons_of_mem p ht)
        have hne : t ≠ p.1 := by
          intro he
          apply hn.1
          rw [← he]
          exact List.mem_map_of_mem Prod.fst ht
        exact mem_erase_one_of_ne hne htoks
      rw [ih _ hn.2 hcond]
    · simp only [phase1, if_neg h1]
      rw [ih _ hn.2 (fun t ht => h t (List.mem_cons_of_mem p ht))]

theorem phase1_rem_subset (ep : Endpoint) (m : List (Token × Endpoint)) (toks : List Token)
    {t : Token} (h : t ∈ (phase1 ep m toks).2) : t ∈ toks := by
  induction m generalizing toks with
  | nil => exact h
  | cons p rest ih =>
    by_cases h1 : p.2 = ep
    · by_cases h2 : p.1 ∈ toks
      · simp only [phase1, if_pos h1, if_pos h2] at h
        exact mem_of_mem_erase_one (ih _ h)
      · simp only [phase1, if_pos h1, if_neg h2] at h
        exact ih _ h
    · simp only [phase1, if_neg h1] at h
      exact ih _ h

theorem phase1_rem_mem (ep : Endpoint) (m : List (Token × Endpoint)) (toks : List Token)
    {t : Token} (ht : t ∈ toks) (hnk : t ∉ m.map Prod.fst) :
    t ∈ (phase1 ep m toks).2 := by
  induction m generalizing toks with
  | nil => exact ht
  | cons p rest ih =>
    simp only [List.map_cons, List.mem_cons, not_or] at hnk
    by_cases h1 : p.2 = ep
    · by_cases h2 : p.1 ∈ toks
      · simp only [phase1, if_pos h1, if_pos h2]
        exact ih _ (mem_erase_one_of_ne hnk.1 ht) hnk.2
      · simp only [phase1, if_pos h1, if_neg h2]
        exact ih _ ht hnk.2
    · simp only [phase1, if_neg h1]
      exact ih _ ht hnk.2

theorem phase1_cover (ep : Endpoint) (m : List (Token × Endpoint)) (toks : List Token)
    {t : Token} (ht : t ∈ toks) :
    (t, ep) ∈ (phase1 ep m toks).1 ∨ t ∈ (phase1 ep m toks).2 := by
  induction m generalizing toks with
  | nil => exact Or.inr ht
  | cons p rest ih =>
    by_cases h1 : p.2 = ep
    · by_cases h2 : p.1 ∈ toks
      · simp only [phase1, if_pos h1, if_pos h2]
        by_cases he : t = p.1
        · left
          apply List.mem_cons.mpr
          left
          rw [he, ← h1]
        · rcases ih _ (mem_erase_one_of_ne he ht) with hl | hr
          · exact Or.inl (List.mem_cons_of_mem p hl)
          · exact Or.inr hr
      · simp only [phase1, if_pos h1, if_neg h2]
        exact ih _ ht
    · simp only [phase1, if_neg h1]
      rcases ih _ ht with hl | hr
      · exact Or.inl (List.mem_cons_of_mem p hl)
      · exact Or.inr hr

theorem insert_token_not_mem {m : List (Token × Endpoint)} {t : Token} {ep : Endpoint}
    (h : t ∉ m.map Prod.fst) : insert_token m t ep = (m ++ [(t, ep)], true) := by
  induction m with
  | nil => rfl
  | cons p rest ih =>
    simp only [List.map_cons, List.mem_cons, not_or] at h
    have hp : ¬ p.1 = t := fun he => h.1 he.symm
    simp only [insert_token, if_neg hp]
    rw [ih h.2]
    rfl

theorem insert_token_snd_true_iff {m : List (Token × Endpoint)} {t : Token} {ep : Endpoint} :
    (insert_token m t ep).2 = true ↔ t ∉ m.map Prod.fst := by
  induction m with
  | nil => simp [insert_token]
  | cons p rest ih =>
    by_cases hp : p.1 = t
    · simp [insert_token, hp]
    · simp only [insert_token, if_neg hp, List.map_cons, List.mem_cons]
      rw [ih]
      constructor
      · rintro hr (he | hm)
        · exact hp he.symm
        · exact hr hm
      · intro hr hm
        exact hr (Or.inr hm)

theorem insert_token_false_keys {m : List (Token × Endpoint)} {t : Token} {ep : Endpoint}
    (h : (insert_token m t ep).2 = false) :
    (insert_token m t ep).1.map Prod.fst = m.map Prod.fst := by
  induction m with
  | nil => simp [insert_token] at h
  | cons p rest ih =>
    by_cases hp : p.1 = t
    · simp [insert_token, hp]
    · simp only [insert_token, if_neg hp] at h ⊢
      simp only [List.map_cons]
      rw [ih h]

theorem insert_token_mem_self (m : List (Token × Endpoint)) (t : Token) (ep : Endpoint) :
    (t, ep) ∈ (insert_token m t ep).1 := by
  induction m with
  | nil => simp [insert_token]
  | cons p rest ih =>
    by_cases hp : p.1 = t
    · simp [insert_token, hp]
    · simp only [insert_token, if_neg hp]
      exact List.mem_cons_of_mem p ih

theorem insert_token_eq_self {m : List (Token × Endpoint)} {t : Token} {ep : Endpoint}
    (hn : (m.map Prod.fst).Nodup) (h : (t, ep) ∈ m) : insert_token m t ep = (m, false) := by
  induction m with
  | nil => simp at h
  | cons p rest ih =>
    simp only [List.map_cons, List.nodup_cons] at hn
    rcases List.mem_cons.mp h with he | hm
    · have hp : p.1 = t := (congrArg Prod.fst he).symm
      simp only [insert_token, if_pos hp]
      rw [he]
    · have hp : p.1 ≠ t := by
        intro he2
        apply hn.1
        rw [he2]
        exact List.mem_map_of_mem Prod.fst hm
      simp only [insert_token, if_neg hp]
      rw [ih hn.2 hm]

theorem insert_token_preserves_mem_ne {m : List (Token × Endpoint)} {t t2 : Token}
    {ep : Endpoint} (hne : t ≠ t2) (h : (t, ep) ∈ m) : (t, ep) ∈ (insert_token m t2 ep).1 := by
  induction m with
  | nil => simp at h
  | cons p rest ih =>
    by_cases hp : p.1 = t2
    · simp only [insert_token, if_pos hp]
      rcases List.mem_cons.mp h with he | hm
      · have : t = t2 := by
          have h2 := congrArg Prod.fst he
          simp only at h2
          rw [h2, hp]
        exact absurd this hne
      · exact List.mem_cons_of_mem _ hm
    · simp only [insert_token, if_neg hp]
      rcases List.mem_cons.mp h with he | hm
      · exact List.mem_cons.mpr (Or.inl he)
      · exact List.mem_cons_of_mem p (ih hm)

theorem insert_token_preserves_mem {m : List (Token × Endpoint)} {t t2 : Token}
    {ep : Endpoint} (hn : (m.map Prod.fst).Nodup) (h : (t, ep) ∈ m) :
    (t, ep) ∈ (insert_token m t2 ep).1 := by
  by_cases he : t = t2
  · subst he
    rw [insert_token_eq_self hn h]
    exact h
  · exact insert_token_preserves_mem_ne he h

theorem insert_token_source {m : List (Token × Endpoint)} {t t2 : Token} {ep : Endpoint}
    (h : (t, ep) ∈ (insert_token m t2 ep).1) : (t, ep) ∈ m ∨ t = t2 := by
  induction m with
  | nil =>
    simp [insert_token] at h
    exact Or.inr h
  | cons p rest ih =>
    by_cases hp : p.1 = t2
    · simp only [insert_token, if_pos hp] at h
      rcases List.mem_cons.mp h with he | hm
      · have h2 := congrArg Prod.fst he
        simp only at h2
        exact Or.inr h2
      · exact Or.inl (List.mem_cons_of_mem p hm)
    · simp only [insert_token, if_neg hp] at h
      rcases List.mem_cons.mp h with he | hm
      · exact Or.inl (List.mem_cons.mpr (Or.inl he))
      · rcases ih hm with h1 | h2
        · exact Or.inl (List.mem_cons_of_mem p h1)
        · exact Or.inr h2

theorem insert_token_keys_nodup {m : List (Token × Endpoint)} {t : Token} {ep : Endpoint}
    (hn : (m.map Prod.fst).Nodup) : ((insert_token m t ep).1.map Prod.fst).Nodup := by
  by_cases hk : t ∈ m.map Prod.fst
  · have hf : (insert_token m t ep).2 = false := by
      cases hb : (insert_token m t ep).2 with
      | false => rfl
      | true => exact absurd (insert_token_snd_true_iff.mp hb) (not_not.mpr hk)
    rw [insert_token_false_keys hf]
    exact hn
  · rw [insert_token_not_mem hk]
    simp only [List.map_append, List.map_cons, List.map_nil]
    rw [List.nodup_append]
    refine ⟨hn, List.nodup_singleton _, ?_⟩
    intro a ha hb
    simp only [List.mem_singleton] at hb
    subst hb
    exact hk ha

theorem phase2_true (ep : Endpoint) (ts : List Token) (m : List (Token × Endpoint)) :
    (phase2 ep ts m true).2 = true := by
  induction ts generalizing m with
  | nil => rfl
  | cons t ts ih =>
    simp only [phase2, Bool.true_or]
    exact ih _

theorem phase2_false {ep : Endpoint} {ts : List Token} {m : List (Token × Endpoint)}
    {b : Bool} (h : (phase2 ep ts m b).2 = false) :
    b = false ∧ (phase2 ep ts m b).1.map Prod.fst = m.map Prod.fst := by
  induction ts generalizing m b with
  | nil => exact ⟨h, rfl⟩
  | cons t ts ih =>
    simp only [phase2] at h ⊢
    obtain ⟨hb, hkeys⟩ := ih h
    obtain ⟨hb1, hb2⟩ := Bool.or_eq_false_iff.mp hb
    refine ⟨hb1, ?_⟩
    rw [hkeys, insert_token_false_keys hb2]

theorem phase2_id {ep : Endpoint} {ts : List Token} {m : List (Token × Endpoint)}
    (hn : (m.map Prod.fst).Nodup) (h : ∀ t ∈ ts, (t, ep) ∈ m) :
    phase2 ep ts m false = (m, false) := by
  induction ts with
  | nil => rfl
  | cons t ts ih =>
    have hins : insert_token m t ep = (m, false) :=
      insert_token_eq_self hn (h t (List.mem_cons_self _ _))
    simp only [phase2, hins, Bool.or_false]
    exact ih (fun u hu => h u (List.mem_cons_of_mem _ hu))

theorem phase2_sort_of_new {ep : Endpoint} {ts : List Token} {m : List (Token × Endpoint)}
    {b : Bool} {t : Token} (ht : t ∈ ts) (hk : t ∉ m.map Prod.fst) :
    (phase2 ep ts m b).2 = true := by
  induction ts generalizing m b with
  | nil => simp at ht
  | cons u us ih =>
    by_cases he : t = u
    · subst he
      have htrue : (insert_token m t ep).2 = true := insert_token_snd_true_iff.mpr hk
      simp only [phase2, htrue, Bool.or_true]
      exact phase2_true _ _ _
    · rcases List.mem_cons.mp ht with he2 | hus
      · exact absurd he2 he
      · have hk2 : t ∉ ((insert_token m u ep).1.map Prod.fst) := by
          cases hu : (insert_token m u ep).2 with
          | false =>
            rw [insert_token_false_keys hu]
            exact hk
          | true =>
            rw [insert_token_not_mem (insert_token_snd_true_iff.mp hu)]
            simp only [List.map_append, List.map_cons, List.map_nil, List.mem_append,
              List.mem_singleton, not_or]
            exact ⟨hk, he⟩
        simp only [phase2]
        exact ih hus hk2

theorem phase2_mem {ep : Endpoint} {ts : List Token} {m : List (Token × Endpoint)} {b : Bool}
    {t : Token} (hn : (m.map Prod.fst).Nodup) (h : (t, ep) ∈ m ∨ t ∈ ts) :
    (t, ep) ∈ (phase2 ep ts m b).1 := by
  induction ts generalizing m b with
  | nil =>
    rcases h with h1 | h2
    · exact h1
    · simp at h2
  | cons u us ih =>
    simp only [phase2]
    have hn2 : ((insert_token m u ep).1.map Prod.fst).Nodup := insert_token_keys_nodup hn
    rcases h with h1 | h2
    · exact ih hn2 (Or.inl (insert_token_preserves_mem hn h1))
    · rcases List.mem_cons.mp h2 with rfl | hus
      · exact ih hn2 (Or.inl (insert_token_mem_self m t ep))
      · exact ih hn2 (Or.inr hus)

theorem phase2_source {ep : Endpoint} {ts : List Token} {m : List (Token × Endpoint)}
    {b : Bool} {t : Token} (h : (t, ep) ∈ (phase2 ep ts m b).1) :
    (t, ep) ∈ m ∨ t ∈ ts := by
  induction ts generalizing m b with
  | nil => exact Or.inl h
  | cons u us ih =>
    simp only [phase2] at h
    rcases ih h with h1 | h2
    · rcases insert_token_source h1 with hm | he
      · exact Or.inl hm
      · exact Or.inr (List.mem_cons.mpr (Or.inl he))
    · exact Or.inr (List.mem_cons_of_mem _ h2)

theorem phase2_keys_nodup {ep : Endpoint} {ts : List Token} {m : List (Token × Endpoint)}
    {b : Bool} (hn : (m.map Prod.fst).Nodup) :
    ((phase2 ep ts m b).1.map Prod.fst).Nodup := by
  induction ts generalizing m b with
  | nil => exact hn
  | cons u us ih =>
    simp only [phase2]
    exact ih (insert_token_keys_nodup hn)

/-! ## C8 -/

theorem applyUpdateNormal_stable {s : TokenMetadata} {T : List Token} {e : Endpoint}
    (hn : (s.token_to_endpoint_map.map Prod.fst).Nodup)
    (hin : ∀ t, (t, e) ∈ s.token_to_endpoint_map → t ∈ T)
    (hall : ∀ t ∈ T, (t, e) ∈ s.token_to_endpoint_map) :
    applyUpdateNormal T e s =
      { s with
        bootstrap_tokens := remove_by_value s.bootstrap_tokens e
        leaving_endpoints := erase_elem s.leaving_endpoints e
        ring_version := s.static_ring_version + 1
        static_ring_version := s.static_ring_version + 1
        normal_token_owners := collect_owners s.token_to_endpoint_map } := by
  have h1 : (phase1 e s.token_to_endpoint_map T).1 = s.token_to_endpoint_map :=
    phase1_id e s.token_to_endpoint_map T hn hin
  have h2 : phase2 e (phase1 e s.token_to_endpoint_map T).2
      (phase1 e s.token_to_endpoint_map T).1 false = (s.token_to_endpoint_map, false) := by
    rw [h1]
    exact phase2_id hn (fun t ht => hall t (phase1_rem_subset e s.token_to_endpoint_map T ht))
  simp [applyUpdateNormal, h2]

/-- C8 counterexample: applying `update_normal_tokens({1}, 0)` twice from a
single-node topology does not reproduce the state of applying it once — the
ring version is bumped again by the second application. -/
theorem c8_counterexample :
    update_normal_tokens [1] 0 tmTopo = Except.ok c8once ∧
    update_normal_tokens [1] 0 c8once = Except.ok c8twice ∧
    c8twice ≠ c8once :=
  ⟨rfl, rfl, by decide⟩

/-- C8 (amended): applying `update_normal_tokens(T, e)` twice in succession
produces the same state as applying it once on every member except the
ring-version counters (which the second application bumps again). -/
theorem c8_update_twice_agrees_except_version (s : TokenMetadata) (T : List Token)
    (e : Endpoint) (s1 s2 : TokenMetadata)
    (hk : (s.token_to_endpoint_map.map Prod.fst).Nodup)
    (h1 : update_normal_tokens T e s = Except.ok s1)
    (h2 : update_normal_tokens T e s1 = Except.ok s2) :
    agree_except_version s2 s1 := by
  cases hT : T.isEmpty with
  | true =>
    simp [update_normal_tokens, hT] at h1 h2
    subst h1
    subst h2
    exact ⟨rfl, rfl, rfl, rfl, rfl, rfl, rfl, rfl⟩
  | false =>
    by_cases htp : e ∈ s.topology
    · have h1' : applyUpdateNormal T e s = s1 := by
        simpa [update_normal_tokens, hT, htp] using h1
      subst h1'
      have hmapA : (applyUpdateNormal T e s).token_to_endpoint_map =
          (phase2 e (phase1 e s.token_to_endpoint_map T).2
            (phase1 e s.token_to_endpoint_map T).1 false).1 := by
        simp [applyUpdateNormal]
      have hn1 : ((phase1 e s.token_to_endpoint_map T).1.map Prod.fst).Nodup :=
        List.Nodup.sublist ((phase1_fst_sublist e s.token_to_endpoint_map T).map Prod.fst) hk
      have hknA : ((applyUpdateNormal T e s).token_to_endpoint_map.map Prod.fst).Nodup := by
        rw [hmapA]
        exact phase2_keys_nodup hn1
      have hinA : ∀ t, (t, e) ∈ (applyUpdateNormal T e s).token_to_endpoint_map → t ∈ T := by
        intro t ht
        rw [hmapA] at ht
        rcases phase2_source ht with hm | hr
        · exact phase1_ep_key_mem e s.token_to_endpoint_map T hm
        · exact phase1_rem_subset e s.token_to_endpoint_map T hr
      have hallA : ∀ t ∈ T, (t, e) ∈ (applyUpdateNormal T e s).token_to_endpoint_map := by
        intro t ht
        rw [hmapA]
        exact phase2_mem hn1 (phase1_cover e s.token_to_endpoint_map T ht)
      have htpA : e ∈ (applyUpdateNormal T e s).topology := by
        simpa [applyUpdateNormal] using htp
      have h2' : applyUpdateNormal T e (applyUpdateNormal T e s) = s2 := by
        simpa [update_normal_tokens, hT, htpA] using h2
      subst h2'
      rw [applyUpdateNormal_stable hknA hinA hallA]
      refine ⟨rfl, ?_, ?_, ?_, rfl, rfl, rfl, rfl⟩
      · simp [applyUpdateNormal]
      · simp [applyUpdateNormal, remove_by_value_idem]
      · simp [applyUpdateNormal, erase_elem_idem]
    · simp [update_normal_tokens, hT, htp] at h1

theorem c8_witness : agree_except_version c8twice c8once :=
  c8_update_twice_agrees_except_version tmTopo [1] 0 c8once c8twice (by decide) rfl rfl

/-! ## C3 -/

theorem goodStep_preserves_inv {s s2 : TokenMetadata} (h : GoodStep s s2)
    (hi : SortedInv s) : SortedInv s2 := by
  obtain ⟨hn, hsort⟩ := hi
  cases h with
  | upd_topology e dr st => exact ⟨hn, hsort⟩
  | rm_endpoint e =>
    refine ⟨?_, ?_⟩
    · exact List.Nodup.sublist
        ((remove_by_value_sublist s.token_to_endpoint_map e).map Prod.fst) hn
    · rfl
  | add_boot _ T e heq =>
    cases hany : T.any (fun t => collideB s.bootstrap_tokens t e ||
        collideB s.token_to_endpoint_map t e) with
    | true => simp [add_bootstrap_tokens, hany] at heq
    | false =>
      have hs2 : { s with bootstrap_tokens := (T.foldl (fun m t => assoc_assign m t e)
          (remove_by_value s.bootstrap_tokens e)) } = s2 := by
        simpa [add_bootstrap_tokens, hany] using heq
      rw [← hs2]
      exact ⟨hn, hsort⟩
  | rm_boot T => exact ⟨hn, hsort⟩
  | add_leaving e => exact ⟨hn, hsort⟩
  | del_leaving e => exact ⟨hn, hsort⟩
  | add_replacing a b => exact ⟨hn, hsort⟩
  | del_replacing a => exact ⟨hn, hsort⟩
  | upd_normal _ T e hgood heq =>
    cases hT : T.isEmpty with
    | true =>
      have hs : s = s2 := by simpa [update_normal_tokens, hT] using heq
      rw [← hs]
      exact ⟨hn, hsort⟩
    | false =>
      by_cases htp : e ∈ s.topology
      · have hs2 : applyUpdateNormal T e s = s2 := by
          simpa [update_normal_tokens, hT, htp] using heq
        rw [← hs2]
        have hn1 : ((phase1 e s.token_to_endpoint_map T).1.map Prod.fst).Nodup :=
          List.Nodup.sublist ((phase1_fst_sublist e s.token_to_endpoint_map T).map Prod.fst) hn
        refine ⟨?_, ?_⟩
        · simp only [applyUpdateNormal]
          exact phase2_keys_nodup hn1
        · cases hb : (phase2 e (phase1 e s.token_to_endpoint_map T).2
              (phase1 e s.token_to_endpoint_map T).1 false).2 with
          | true => simp [applyUpdateNormal, hb]
          | false =>
            have hkeys : (phase2 e (phase1 e s.token_to_endpoint_map T).2
                (phase1 e s.token_to_endpoint_map T).1 false).1.map Prod.fst =
                (phase1 e s.token_to_endpoint_map T).1.map Prod.fst := (phase2_false hb).2
            have hkeq : (phase1 e s.token_to_endpoint_map T).1.map Prod.fst =
                s.token_to_endpoint_map.map Prod.fst := by
              rcases hgood with hleft | ⟨t, htT, htk⟩
              · rw [phase1_id e _ T hn hleft]
              · exfalso
                have hm1 : t ∈ (phase1 e s.token_to_endpoint_map T).2 :=
                  phase1_rem_mem e _ T htT htk
                have hm2 : t ∉ (phase1 e s.token_to_endpoint_map T).1.map Prod.fst := by
                  intro hc
                  exact htk
                    (((phase1_fst_sublist e s.token_to_endpoint_map T).map Prod.fst).subset hc)
                have htrue := @phase2_sort_of_new e (phase1 e s.token_to_endpoint_map T).2
                  (phase1 e s.token_to_endpoint_map T).1 false t hm1 hm2
                rw [hb] at htrue
                simp at htrue
            simp only [applyUpdateNormal, hb, if_false]
            rw [hsort]
            unfold sort_keys
            rw [hkeys, hkeq]
            simp
      · simp [update_normal_tokens, hT, htp] at heq

theorem reachableGood_inv (s : TokenMetadata) (h : ReachableGood s) : SortedInv s := by
  induction h with
  | init => exact ⟨List.nodup_nil, rfl⟩
  | step s s2 hr hst ih => exact goodStep_preserves_inv hst ih

/-- C3 counterexample: starting from a single-node topology,
`update_normal_tokens({1, 2}, 0)` followed by `update_normal_tokens({1}, 0)`
reaches a snapshot (via the claim's public operations) whose
`sorted_tokens` is `[1, 2]` while the token map's keys are `[1]` — the
second call erased token `2` without inserting any new token, so the
conditional re-sort never ran. -/
theorem c3_counterexample :
    update_normal_tokens [1, 2] 0 tmTopo = Except.ok c3mid ∧
    update_normal_tokens [1] 0 c3mid = Except.ok c3bad ∧
    c3bad.sorted_tokens ≠ sort_keys c3bad.token_to_endpoint_map :=
  ⟨rfl, rfl, by decide⟩

/-- C3 (amended): for every snapshot reachable by the public mutation
operations in which each `update_normal_tokens(T, e)` call either retains
every token currently owned by `e` or inserts at least one token new to the
map, `sorted_tokens` equals the ascending sort of the keys of the
token-to-endpoint map. -/
theorem c3_sorted_tokens_invariant (s : TokenMetadata) (h : ReachableGood s) :
    s.sorted_tokens = sort_keys s.token_to_endpoint_map :=
  (reachableGood_inv s h).2

theorem c3_witness : c3mid.sorted_tokens = sort_keys c3mid.token_to_endpoint_map :=
  c3_sorted_tokens_invariant c3mid
    (ReachableGood.step tmTopo c3mid
      (ReachableGood.step initTM tmTopo ReachableGood.init
        (GoodStep.upd_topology initTM 0 ⟨"", ""⟩ none))
      (GoodStep.upd_normal tmTopo c3mid [1, 2] 0 (Or.inr ⟨1, by decide, by decide⟩) rfl))
